import Mathlib

/-!
Shallow embedding of `src/protocol/varint.rs`: the QUIC variable-length
integer codec (`VarInt::encode` / `VarInt::decode`).

Bytes are modelled as natural numbers below 256, buffers as `List Nat`.
The Rust functions return `Result<usize>` but never construct an `Err`:
`encode` calls `panic!` on overflow and `decode` relies on the `bytes`
crate primitives `get_u8` / `get_uint_be`, which panic when the buffer
has fewer bytes than requested.  A panic is modelled by the dedicated
`panicked` constructor of the result types below.
-/

namespace Quic

/-- `const MAX_INT_1: u64 = 0b00111111` (`2^6 - 1`). -/
def MAX_INT_1 : Nat := 0b00111111

/-- `const MAX_INT_2: u64 = 0b00111111_11111111` (`2^14 - 1`). -/
def MAX_INT_2 : Nat := 0b0011111111111111

/-- `const MAX_INT_4: u64` (`2^30 - 1`). -/
def MAX_INT_4 : Nat := 0b00111111111111111111111111111111

/-- `const MAX_INT_8: u64` (`2^62 - 1`). -/
def MAX_INT_8 : Nat :=
  0b0011111111111111111111111111111111111111111111111111111111111111

/-- `const INT_1_FLAG: u8 = 0b00`. -/
def INT_1_FLAG : Nat := 0

/-- `const INT_2_FLAG: u8 = 0b01`. -/
def INT_2_FLAG : Nat := 1

/-- `const INT_4_FLAG: u8 = 0b10`. -/
def INT_4_FLAG : Nat := 2

/-- `const INT_8_FLAG: u8 = 0b11`. -/
def INT_8_FLAG : Nat := 3

/-- Model of `bytes::BufMut::put_uint_be(x, n)`: append the `n` low-order
bytes of `x` in big-endian order. -/
def put_uint_be (x n : Nat) : List Nat :=
  (List.range n).map fun i => x / 2 ^ (8 * (n - 1 - i)) % 256

/-- Modelled from the spec: the encode-side error kind
`EncodeError::ValueTooLarge`.  The crate's `error` module is not part of
the sources; `varint.rs` itself never constructs any error value. -/
inductive EncodeError where
  | valueTooLarge
deriving DecidableEq

/-- Outcome of `VarInt::encode`: `ok bytes n` is `Ok(n)` together with the
bytes appended to the destination buffer; `err` is an `Err(..)` return
(never produced by the source); `panicked` models the `panic!` arm. -/
inductive EncodeResult where
  | ok : List Nat → Nat → EncodeResult
  | err : EncodeError → EncodeResult
  | panicked : EncodeResult
deriving DecidableEq

/-- `VarInt::encode` from `src/protocol/varint.rs` lines 26-49: match the
value against the four width ranges in ascending order, append the value
`OR`-ed with the shifted width flag as `w` big-endian bytes, and return
`w`; values above `MAX_INT_8` hit the `panic!` arm. -/
def encode (v : Nat) : EncodeResult :=
  if v ≤ MAX_INT_1 then .ok (put_uint_be (v ||| INT_1_FLAG <<< 6) 1) 1
  else if v ≤ MAX_INT_2 then .ok (put_uint_be (v ||| INT_2_FLAG <<< 14) 2) 2
  else if v ≤ MAX_INT_4 then .ok (put_uint_be (v ||| INT_4_FLAG <<< 30) 4) 4
  else if v ≤ MAX_INT_8 then .ok (put_uint_be (v ||| INT_8_FLAG <<< 62) 8) 8
  else .panicked

/-- Modelled from the spec: the decode-side error kind
`DecodeError::InsufficientData`.  The crate's `error` module is not part
of the sources; `varint.rs` itself never constructs any error value. -/
inductive DecodeError where
  | insufficientData
deriving DecidableEq

/-- Outcome of `VarInt::decode`: `ok v n` is `Ok(n)` with the decoded
value `v` stored into the `VarInt`; `err` is an `Err(..)` return (never
produced by the source); `panicked` models a panic inside the `bytes`
crate reads (or the `unreachable!` arm). -/
inductive DecodeResult where
  | ok : Nat → Nat → DecodeResult
  | err : DecodeError → DecodeResult
  | panicked : DecodeResult
deriving DecidableEq

/-- Model of `bytes::Buf::get_uint_be(n)` on the remaining buffer: the
big-endian value of the next `n` bytes, or a panic (`none`) when fewer
than `n` bytes remain. -/
def get_uint_be (src : List Nat) (n : Nat) : Option Nat :=
  if n ≤ src.length then
    some ((src.take n).foldl (fun acc b => acc * 256 + b) 0)
  else none

/-- `VarInt::decode` from `src/protocol/varint.rs` lines 53-64: read the
first byte (panicking when the buffer is empty), dispatch on its top two
bits, read the remaining `w - 1` bytes, and mask the concatenation with
the width's maximum constant.  The flag values `INT_1_FLAG`..`INT_8_FLAG`
are `0`..`3`; the final arm models `unreachable!()` (a panic), which a
`u8` first byte can never reach. -/
def decode (src : List Nat) : DecodeResult :=
  match src with
  | [] => .panicked
  | first :: rest =>
    match first >>> 6 with
    | 0 => .ok (first &&& MAX_INT_1) 1
    | 1 =>
      match get_uint_be rest 1 with
      | some m => .ok ((first <<< 8 ||| m) &&& MAX_INT_2) 2
      | none => .panicked
    | 2 =>
      match get_uint_be rest 3 with
      | some m => .ok ((first <<< 24 ||| m) &&& MAX_INT_4) 4
      | none => .panicked
    | 3 =>
      match get_uint_be rest 7 with
      | some m => .ok ((first <<< 56 ||| m) &&& MAX_INT_8) 8
      | none => .panicked
    | _ => .panicked

/-- The width (total bytes, first byte included) named by the top two
bits of the first byte, following the spec's tag table. -/
def tagWidth (first : Nat) : Nat :=
  match first >>> 6 with
  | 0 => 1
  | 1 => 2
  | 2 => 4
  | _ => 8

/-- Big-endian value of a byte list (the spec's "concatenating all bits
from the `w` bytes in big-endian order"). -/
def beVal (l : List Nat) : Nat :=
  l.foldl (fun acc b => acc * 256 + b) 0

/-- The `w`-byte big-endian representation of `v` (spec, Encoder step
"Store the value in `w` bytes, big-endian"). -/
def beBytes (v w : Nat) : List Nat :=
  (List.range w).map fun i => v / 2 ^ (8 * (w - 1 - i)) % 256

/-- The 2-bit tag the spec assigns to each width. -/
def tagOf (w : Nat) : Nat :=
  match w with
  | 1 => 0
  | 2 => 1
  | 4 => 2
  | _ => 3

/-- The spec's wire format: the `w`-byte big-endian representation of `v`
with the width tag `OR`-ed into the top two bits of the first byte. -/
def specWire (v w : Nat) : List Nat :=
  match beBytes v w with
  | [] => []
  | b :: bs => (b ||| tagOf w <<< 6) :: bs

/-! ### Arithmetic helper lemmas -/

theorem shiftLeft_lor_eq_add (a p m : Nat) (hm : m < 2 ^ p) :
    a <<< p ||| m = a * 2 ^ p + m := by
  rw [Nat.shiftLeft_eq, Nat.mul_comm a (2 ^ p)]
  exact (Nat.mul_add_lt_is_or hm a).symm

theorem lor_shiftLeft_eq_add (t p v : Nat) (hv : v < 2 ^ p) :
    v ||| t <<< p = t * 2 ^ p + v := by
  rw [Nat.or_comm]
  exact shiftLeft_lor_eq_add t p v hv

theorem MAX_INT_1_eq : MAX_INT_1 = 2 ^ 6 - 1 := by decide

theorem MAX_INT_2_eq : MAX_INT_2 = 2 ^ 14 - 1 := by decide

theorem MAX_INT_4_eq : MAX_INT_4 = 2 ^ 30 - 1 := by decide

theorem MAX_INT_8_eq : MAX_INT_8 = 2 ^ 62 - 1 := by norm_num [MAX_INT_8]

theorem put_uint_be_one (x : Nat) : put_uint_be x 1 = [x % 256] := by
  simp [put_uint_be, List.range_succ]

theorem put_uint_be_two (x : Nat) :
    put_uint_be x 2 = [x / 2 ^ 8 % 256, x % 256] := by
  simp [put_uint_be, List.range_succ]

theorem put_uint_be_four (x : Nat) :
    put_uint_be x 4 =
      [x / 2 ^ 24 % 256, x / 2 ^ 16 % 256, x / 2 ^ 8 % 256, x % 256] := by
  simp [put_uint_be, List.range_succ]

theorem put_uint_be_eight (x : Nat) :
    put_uint_be x 8 =
      [x / 2 ^ 56 % 256, x / 2 ^ 48 % 256, x / 2 ^ 40 % 256, x / 2 ^ 32 % 256,
       x / 2 ^ 24 % 256, x / 2 ^ 16 % 256, x / 2 ^ 8 % 256, x % 256] := by
  simp [put_uint_be, List.range_succ]

theorem get_uint_be_eq (src : List Nat) (n : Nat) (h : n ≤ src.length) :
    get_uint_be src n = some (beVal (src.take n)) := by
  simp [get_uint_be, beVal, h]

theorem get_uint_be_none (src : List Nat) (n : Nat) (h : src.length < n) :
    get_uint_be src n = none := by
  simp [get_uint_be]
  omega

theorem beVal_foldl (l : List Nat) (a : Nat) :
    l.foldl (fun acc b => acc * 256 + b) a = a * 256 ^ l.length + beVal l := by
  induction l generalizing a with
  | nil => simp [beVal]
  | cons b l ih =>
    simp only [List.foldl_cons, List.length_cons]
    rw [ih (a * 256 + b)]
    have hb : beVal (b :: l) = b * 256 ^ l.length + beVal l := by
      simp only [beVal, List.foldl_cons, Nat.zero_mul, Nat.zero_add]
      exact ih b
    rw [hb]
    ring

theorem beVal_cons (b : Nat) (l : List Nat) :
    beVal (b :: l) = b * 256 ^ l.length + beVal l := by
  simp only [beVal, List.foldl_cons, Nat.zero_mul, Nat.zero_add]
  exact beVal_foldl l b

theorem beVal_lt (l : List Nat) (h : ∀ b ∈ l, b < 256) :
    beVal l < 256 ^ l.length := by
  induction l with
  | nil => simp [beVal]
  | cons b l ih =>
    rw [beVal_cons, List.length_cons]
    have hb : b < 256 := h b (by simp)
    have hl : beVal l < 256 ^ l.length := ih fun x hx => h x (by simp [hx])
    calc b * 256 ^ l.length + beVal l
        < b * 256 ^ l.length + 256 ^ l.length := by omega
      _ = (b + 1) * 256 ^ l.length := by ring
      _ ≤ 256 * 256 ^ l.length := Nat.mul_le_mul_right _ hb
      _ = 256 ^ (l.length + 1) := by ring

/-! ### Branch-level characterisations of `encode` and `decode` -/

theorem encode_branch1 (v : Nat) (h : v ≤ MAX_INT_1) :
    encode v = .ok [v] 1 := by
  have hv : v ||| INT_1_FLAG <<< 6 = v := by
    simp [INT_1_FLAG, Nat.zero_shiftLeft]
  rw [encode, if_pos h, hv, put_uint_be_one,
    Nat.mod_eq_of_lt (by rw [MAX_INT_1_eq] at h; omega)]

theorem encode_branch2 (v : Nat) (h1 : ¬ v ≤ MAX_INT_1) (h2 : v ≤ MAX_INT_2) :
    encode v = .ok [2 ^ 6 + v / 2 ^ 8, v % 2 ^ 8] 2 := by
  rw [MAX_INT_1_eq] at h1
  rw [MAX_INT_2_eq] at h2
  have hx : v ||| INT_2_FLAG <<< 14 = 1 * 2 ^ 14 + v :=
    lor_shiftLeft_eq_add 1 14 v (by omega)
  rw [encode, if_neg (by rw [MAX_INT_1_eq]; omega),
    if_pos (by rw [MAX_INT_2_eq]; omega), hx, put_uint_be_two]
  congr 1
  simp only [List.cons.injEq, and_true]
  omega

theorem encode_branch4 (v : Nat) (h1 : ¬ v ≤ MAX_INT_2) (h2 : v ≤ MAX_INT_4) :
    encode v =
      .ok [2 ^ 7 + v / 2 ^ 24, v / 2 ^ 16 % 256, v / 2 ^ 8 % 256, v % 2 ^ 8] 4 := by
  rw [MAX_INT_2_eq] at h1
  rw [MAX_INT_4_eq] at h2
  have hx : v ||| INT_4_FLAG <<< 30 = 2 * 2 ^ 30 + v :=
    lor_shiftLeft_eq_add 2 30 v (by omega)
  rw [encode, if_neg (by rw [MAX_INT_1_eq]; omega),
    if_neg (by rw [MAX_INT_2_eq]; omega),
    if_pos (by rw [MAX_INT_4_eq]; omega), hx, put_uint_be_four]
  congr 1
  simp only [List.cons.injEq, and_true]
  omega

theorem encode_branch8 (v : Nat) (h1 : ¬ v ≤ MAX_INT_4) (h2 : v ≤ MAX_INT_8) :
    encode v =
      .ok [3 * 2 ^ 6 + v / 2 ^ 56, v / 2 ^ 48 % 256, v / 2 ^ 40 % 256,
        v / 2 ^ 32 % 256, v / 2 ^ 24 % 256, v / 2 ^ 16 % 256,
        v / 2 ^ 8 % 256, v % 2 ^ 8] 8 := by
  rw [MAX_INT_4_eq] at h1
  rw [MAX_INT_8_eq] at h2
  have hx : v ||| INT_8_FLAG <<< 62 = 3 * 2 ^ 62 + v :=
    lor_shiftLeft_eq_add 3 62 v (by omega)
  rw [encode, if_neg (by rw [MAX_INT_1_eq]; omega),
    if_neg (by rw [MAX_INT_2_eq]; omega),
    if_neg (by rw [MAX_INT_4_eq]; omega),
    if_pos (by rw [MAX_INT_8_eq]; omega), hx, put_uint_be_eight]
  congr 1
  simp only [List.cons.injEq, and_true]
  omega

theorem encode_panic (v : Nat) (h : ¬ v ≤ MAX_INT_8) :
    encode v = .panicked := by
  rw [MAX_INT_8_eq] at h
  rw [encode, if_neg (by rw [MAX_INT_1_eq]; omega),
    if_neg (by rw [MAX_INT_2_eq]; omega),
    if_neg (by rw [MAX_INT_4_eq]; omega),
    if_neg (by rw [MAX_INT_8_eq]; omega)]

theorem decode_tag0 (first : Nat) (rest : List Nat) (h : first >>> 6 = 0) :
    decode (first :: rest) = .ok (first &&& MAX_INT_1) 1 := by
  rw [decode, h]

theorem decode_tag1 (first : Nat) (rest : List Nat) (h : first >>> 6 = 1)
    (hlen : 1 ≤ rest.length) :
    decode (first :: rest) =
      .ok ((first <<< 8 ||| beVal (rest.take 1)) &&& MAX_INT_2) 2 := by
  rw [decode, h, get_uint_be_eq rest 1 hlen]

theorem decode_tag2 (first : Nat) (rest : List Nat) (h : first >>> 6 = 2)
    (hlen : 3 ≤ rest.length) :
    decode (first :: rest) =
      .ok ((first <<< 24 ||| beVal (rest.take 3)) &&& MAX_INT_4) 4 := by
  rw [decode, h, get_uint_be_eq rest 3 hlen]

theorem decode_tag3 (first : Nat) (rest : List Nat) (h : first >>> 6 = 3)
    (hlen : 7 ≤ rest.length) :
    decode (first :: rest) =
      .ok ((first <<< 56 ||| beVal (rest.take 7)) &&& MAX_INT_8) 8 := by
  rw [decode, h, get_uint_be_eq rest 7 hlen]

/-! ### Claim theorems -/

set_option maxHeartbeats 1000000 in
/-- C1: Round-trip — for every value `v` in `[0, 2^62 - 1]`, encoding `v`
and then decoding the produced bytes yields back exactly `v` together
with a bytes-consumed count equal to the width `w` that `encode` chose
for `v`. -/
theorem roundtrip_decode_encode (v : Nat) (h : v ≤ MAX_INT_8) :
    ∃ bs w, encode v = .ok bs w ∧ decode bs = .ok v w := by
  by_cases h1 : v ≤ MAX_INT_1
  · refine ⟨[v], 1, encode_branch1 v h1, ?_⟩
    rw [MAX_INT_1_eq] at h1
    have ht : v >>> 6 = 0 := by rw [Nat.shiftRight_eq_div_pow]; omega
    rw [decode_tag0 v [] ht, MAX_INT_1_eq, Nat.and_pow_two_sub_one_eq_mod]
    congr 1
    omega
  · by_cases h2 : v ≤ MAX_INT_2
    · refine ⟨_, 2, encode_branch2 v h1 h2, ?_⟩
      rw [MAX_INT_1_eq] at h1
      rw [MAX_INT_2_eq] at h2
      have ht : (2 ^ 6 + v / 2 ^ 8) >>> 6 = 1 := by
        rw [Nat.shiftRight_eq_div_pow]; omega
      rw [decode_tag1 _ _ ht (by simp)]
      have hbe : beVal ([v % 2 ^ 8].take 1) = v % 2 ^ 8 := by simp [beVal]
      rw [hbe, shiftLeft_lor_eq_add _ 8 _ (by omega), MAX_INT_2_eq,
        Nat.and_pow_two_sub_one_eq_mod]
      congr 1
      omega
    · by_cases h3 : v ≤ MAX_INT_4
      · refine ⟨_, 4, encode_branch4 v h2 h3, ?_⟩
        rw [MAX_INT_2_eq] at h2
        rw [MAX_INT_4_eq] at h3
        have ht : (2 ^ 7 + v / 2 ^ 24) >>> 6 = 2 := by
          rw [Nat.shiftRight_eq_div_pow]; omega
        rw [decode_tag2 _ _ ht (by simp)]
        have hbe : beVal ([v / 2 ^ 16 % 256, v / 2 ^ 8 % 256, v % 2 ^ 8].take 3) =
            (v / 2 ^ 16 % 256 * 256 + v / 2 ^ 8 % 256) * 256 + v % 2 ^ 8 := by
          simp [beVal]
        rw [hbe, shiftLeft_lor_eq_add _ 24 _ (by omega), MAX_INT_4_eq,
          Nat.and_pow_two_sub_one_eq_mod]
        congr 1
        omega
      · refine ⟨_, 8, encode_branch8 v h3 (by omega), ?_⟩
        rw [MAX_INT_4_eq] at h3
        rw [MAX_INT_8_eq] at h
        have ht : (3 * 2 ^ 6 + v / 2 ^ 56) >>> 6 = 3 := by
          rw [Nat.shiftRight_eq_div_pow]; omega
        rw [decode_tag3 _ _ ht (by simp)]
        have hbe : beVal ([v / 2 ^ 48 % 256, v / 2 ^ 40 % 256, v / 2 ^ 32 % 256,
            v / 2 ^ 24 % 256, v / 2 ^ 16 % 256, v / 2 ^ 8 % 256, v % 2 ^ 8].take 7) =
            (((((v / 2 ^ 48 % 256 * 256 + v / 2 ^ 40 % 256) * 256 + v / 2 ^ 32 % 256) *
              256 + v / 2 ^ 24 % 256) * 256 + v / 2 ^ 16 % 256) * 256 +
              v / 2 ^ 8 % 256) * 256 + v % 2 ^ 8 := by
          simp [beVal]
        rw [hbe, shiftLeft_lor_eq_add _ 56 _ (by omega), MAX_INT_8_eq,
          Nat.and_pow_two_sub_one_eq_mod]
        congr 1
        omega

/-- Witness for C1 at `v = 257`. -/
theorem roundtrip_decode_encode_witness :
    257 ≤ MAX_INT_8 ∧ ∃ bs w, encode 257 = .ok bs w ∧ decode bs = .ok 257 w :=
  ⟨by decide, roundtrip_decode_encode 257 (by decide)⟩

/-- C2 (amended): Overflow panic — for every value strictly greater than
`2^62 - 1`, `encode` hits the `panic!` arm: it aborts instead of
returning, so it produces neither a truncated nor a wrapped encoding,
and it returns no error value. -/
theorem encode_overflow_panics (v : Nat) (h : MAX_INT_8 < v) :
    encode v = .panicked :=
  encode_panic v (by omega)

/-- Witness for C2 (amended) at `v = 2^62`. -/
theorem encode_overflow_panics_witness :
    MAX_INT_8 < 4611686018427387904 ∧
      encode 4611686018427387904 = .panicked :=
  ⟨by decide, encode_overflow_panics 4611686018427387904 (by decide)⟩

/-- C2 counterexample: `encode (2^62)` panics; it does not return the
explicit failed result `EncodeError::ValueTooLarge` that the claim
requires. -/
theorem encode_overflow_counterexample :
    encode 4611686018427387904 = .panicked ∧
      encode 4611686018427387904 ≠ .err .valueTooLarge := by
  decide

/-- C3 (amended): Insufficient data panics — `decode` of the empty buffer
panics (`get_u8` on an empty buffer), and `decode` of a buffer whose
first byte's width tag implies a width `w` but which holds fewer than `w`
bytes panics (`get_uint_be` reading past the end): the same outcome in
both cases, but a panic, not an error return. -/
theorem decode_insufficient_panics :
    decode [] = .panicked ∧
    ∀ first rest, first < 256 → (first :: rest).length < tagWidth first →
      decode (first :: rest) = .panicked := by
  refine ⟨rfl, ?_⟩
  intro first rest hf hlen
  have h4 : first >>> 6 = 0 ∨ first >>> 6 = 1 ∨ first >>> 6 = 2 ∨
      first >>> 6 = 3 := by
    rw [Nat.shiftRight_eq_div_pow]; omega
  rcases h4 with ht | ht | ht | ht
  · simp [tagWidth, ht, List.length_cons] at hlen
  · simp only [tagWidth, ht, List.length_cons] at hlen
    rw [decode, ht, get_uint_be_none rest 1 (by omega)]
  · simp only [tagWidth, ht, List.length_cons] at hlen
    rw [decode, ht, get_uint_be_none rest 3 (by omega)]
  · simp only [tagWidth, ht, List.length_cons] at hlen
    rw [decode, ht, get_uint_be_none rest 7 (by omega)]

/-- Witness for C3 (amended): the one-byte buffer `[0b10000000]` declares
width 4 but holds a single byte. -/
theorem decode_insufficient_panics_witness :
    decode [0b10000000] = .panicked :=
  decode_insufficient_panics.2 0b10000000 [] (by decide) (by decide)

/-- C3 counterexample: on the empty buffer and on `[0b01000000]` (width
tag `01` implying 2 bytes, only one byte present) `decode` panics; it
does not return `DecodeError::InsufficientData` as the claim states. -/
theorem decode_insufficient_counterexample :
    decode [] = .panicked ∧ decode [] ≠ .err .insufficientData ∧
    decode [0b01000000] = .panicked ∧
      decode [0b01000000] ≠ .err .insufficientData := by
  decide

/-- C7: Boundary exactness — `encode 63` writes exactly 1 byte,
`encode 64` and `encode 16383` write exactly 2, `encode 16384` and
`encode 1073741823` write exactly 4, `encode 1073741824` writes exactly
8; in each case the returned bytes-written count matches. -/
theorem encode_boundary_widths :
    (∃ bs : List Nat, encode 63 = .ok bs 1 ∧ bs.length = 1) ∧
    (∃ bs : List Nat, encode 64 = .ok bs 2 ∧ bs.length = 2) ∧
    (∃ bs : List Nat, encode 16383 = .ok bs 2 ∧ bs.length = 2) ∧
    (∃ bs : List Nat, encode 16384 = .ok bs 4 ∧ bs.length = 4) ∧
    (∃ bs : List Nat, encode 1073741823 = .ok bs 4 ∧ bs.length = 4) ∧
    (∃ bs : List Nat, encode 1073741824 = .ok bs 8 ∧ bs.length = 8) := by
  refine ⟨⟨[63], by decide, rfl⟩, ⟨[64, 64], by decide, rfl⟩,
    ⟨[127, 255], by decide, rfl⟩, ⟨[128, 0, 64, 0], by decide, rfl⟩,
    ⟨[191, 255, 255, 255], by decide, rfl⟩,
    ⟨[192, 0, 0, 0, 64, 0, 0, 0], by decide, rfl⟩⟩

/-- C4: Minimality — for every in-range value, the width chosen by
`encode` is the smallest `w ∈ {1, 2, 4, 8}` with `v ≤ 2^(8w-2) - 1`; the
candidate widths are checked in ascending order and the first that fits
is selected. -/
theorem encode_minimal_width (v : Nat) (h : v ≤ MAX_INT_8) :
    ∃ bs w, encode v = .ok bs w ∧ (w = 1 ∨ w = 2 ∨ w = 4 ∨ w = 8) ∧
      v ≤ 2 ^ (8 * w - 2) - 1 ∧
      ∀ w', (w' = 1 ∨ w' = 2 ∨ w' = 4 ∨ w' = 8) →
        v ≤ 2 ^ (8 * w' - 2) - 1 → w ≤ w' := by
  by_cases h1 : v ≤ MAX_INT_1
  · refine ⟨[v], 1, encode_branch1 v h1, by norm_num, ?_, ?_⟩
    · rw [MAX_INT_1_eq] at h1
      norm_num
      omega
    · intro w' hw' hfit
      rcases hw' with rfl | rfl | rfl | rfl <;> omega
  · by_cases h2 : v ≤ MAX_INT_2
    · refine ⟨_, 2, encode_branch2 v h1 h2, by norm_num, ?_, ?_⟩
      · rw [MAX_INT_2_eq] at h2
        norm_num
        omega
      · intro w' hw' hfit
        rw [MAX_INT_1_eq] at h1
        rcases hw' with rfl | rfl | rfl | rfl <;> norm_num at hfit ⊢ <;> omega
    · by_cases h3 : v ≤ MAX_INT_4
      · refine ⟨_, 4, encode_branch4 v h2 h3, by norm_num, ?_, ?_⟩
        · rw [MAX_INT_4_eq] at h3
          norm_num
          omega
        · intro w' hw' hfit
          rw [MAX_INT_1_eq] at h1
          rw [MAX_INT_2_eq] at h2
          rcases hw' with rfl | rfl | rfl | rfl <;> norm_num at hfit ⊢ <;> omega
      · refine ⟨_, 8, encode_branch8 v h3 h, by norm_num, ?_, ?_⟩
        · rw [MAX_INT_8_eq] at h
          norm_num
          omega
        · intro w' hw' hfit
          rw [MAX_INT_2_eq] at h2
          rw [MAX_INT_4_eq] at h3
          rcases hw' with rfl | rfl | rfl | rfl <;> norm_num at hfit ⊢ <;> omega

/-- Witness for C4 at `v = 64` (first value needing width 2). -/
theorem encode_minimal_width_witness :
    64 ≤ MAX_INT_8 ∧
      ∃ bs w, encode 64 = .ok bs w ∧ (w = 1 ∨ w = 2 ∨ w = 4 ∨ w = 8) ∧
        64 ≤ 2 ^ (8 * w - 2) - 1 ∧
        ∀ w', (w' = 1 ∨ w' = 2 ∨ w' = 4 ∨ w' = 8) →
          64 ≤ 2 ^ (8 * w' - 2) - 1 → w ≤ w' :=
  ⟨by decide, encode_minimal_width 64 (by decide)⟩

/-- C5: Decode reconstruction — for every buffer holding at least the `w`
bytes named by the top two bits of its first byte, `decode` returns the
big-endian value of those `w` bytes with the two tag bits cleared
(i.e. reduced modulo `2^(8w-2)`), and reports exactly `w` bytes
consumed. -/
theorem decode_reconstruction (first : Nat) (rest : List Nat)
    (hf : first < 256)
    (hb : ∀ b ∈ rest.take (tagWidth first - 1), b < 256)
    (hlen : tagWidth first ≤ (first :: rest).length) :
    decode (first :: rest) =
      .ok (beVal ((first :: rest).take (tagWidth first)) %
          2 ^ (8 * tagWidth first - 2)) (tagWidth first) := by
  have h4 : first >>> 6 = 0 ∨ first >>> 6 = 1 ∨ first >>> 6 = 2 ∨
      first >>> 6 = 3 := by
    rw [Nat.shiftRight_eq_div_pow]; omega
  rcases h4 with ht | ht | ht | ht
  · have hw : tagWidth first = 1 := by simp [tagWidth, ht]
    rw [hw, decode_tag0 first rest ht]
    congr 1
    rw [MAX_INT_1_eq, Nat.and_pow_two_sub_one_eq_mod]
    simp [beVal]
  · have hw : tagWidth first = 2 := by simp [tagWidth, ht]
    rw [hw] at hb hlen ⊢
    simp only [List.length_cons] at hlen
    have hb' : ∀ b ∈ rest.take 1, b < 256 := by simpa using hb
    have hmin : min 1 rest.length = 1 := by omega
    have hmlt : beVal (rest.take 1) < 2 ^ 8 := by
      have hlt := beVal_lt (rest.take 1) hb'
      rw [List.length_take, hmin] at hlt
      simpa using hlt
    rw [decode_tag1 first rest ht (by omega),
      shiftLeft_lor_eq_add first 8 _ hmlt, MAX_INT_2_eq,
      Nat.and_pow_two_sub_one_eq_mod]
    congr 1
    have htk : (first :: rest).take 2 = first :: rest.take 1 := by
      simp [List.take_succ_cons]
    rw [htk, beVal_cons, List.length_take, hmin]
    norm_num
  · have hw : tagWidth first = 4 := by simp [tagWidth, ht]
    rw [hw] at hb hlen ⊢
    simp only [List.length_cons] at hlen
    have hb' : ∀ b ∈ rest.take 3, b < 256 := by simpa using hb
    have hmin : min 3 rest.length = 3 := by omega
    have hmlt : beVal (rest.take 3) < 2 ^ 24 := by
      have hlt := beVal_lt (rest.take 3) hb'
      rw [List.length_take, hmin] at hlt
      simpa using hlt
    rw [decode_tag2 first rest ht (by omega),
      shiftLeft_lor_eq_add first 24 _ hmlt, MAX_INT_4_eq,
      Nat.and_pow_two_sub_one_eq_mod]
    congr 1
    have htk : (first :: rest).take 4 = first :: rest.take 3 := by
      simp [List.take_succ_cons]
    rw [htk, beVal_cons, List.length_take, hmin]
    norm_num
  · have hw : tagWidth first = 8 := by simp [tagWidth, ht]
    rw [hw] at hb hlen ⊢
    simp only [List.length_cons] at hlen
    have hb' : ∀ b ∈ rest.take 7, b < 256 := by simpa using hb
    have hmin : min 7 rest.length = 7 := by omega
    have hmlt : beVal (rest.take 7) < 2 ^ 56 := by
      have hlt := beVal_lt (rest.take 7) hb'
      rw [List.length_take, hmin] at hlt
      simpa using hlt
    rw [decode_tag3 first rest ht (by omega),
      shiftLeft_lor_eq_add first 56 _ hmlt, MAX_INT_8_eq,
      Nat.and_pow_two_sub_one_eq_mod]
    congr 1
    have htk : (first :: rest).take 8 = first :: rest.take 7 := by
      simp [List.take_succ_cons]
    rw [htk, beVal_cons, List.length_take, hmin]
    norm_num

/-- Witness for C5: the two-byte buffer `[0b01000001, 0b00000001]`
decodes to its big-endian value modulo `2^14`, namely `257`, consuming
2 bytes. -/
theorem decode_reconstruction_witness : decode [65, 1] = .ok 257 2 := by
  rw [decode_reconstruction 65 [1] (by decide) (by decide) (by decide)]
  decide

theorem beBytes_one (v : Nat) : beBytes v 1 = [v % 256] :=
  put_uint_be_one v

theorem beBytes_two (v : Nat) :
    beBytes v 2 = [v / 2 ^ 8 % 256, v % 256] :=
  put_uint_be_two v

theorem beBytes_four (v : Nat) :
    beBytes v 4 =
      [v / 2 ^ 24 % 256, v / 2 ^ 16 % 256, v / 2 ^ 8 % 256, v % 256] :=
  put_uint_be_four v

theorem beBytes_eight (v : Nat) :
    beBytes v 8 =
      [v / 2 ^ 56 % 256, v / 2 ^ 48 % 256, v / 2 ^ 40 % 256, v / 2 ^ 32 % 256,
       v / 2 ^ 24 % 256, v / 2 ^ 16 % 256, v / 2 ^ 8 % 256, v % 256] :=
  put_uint_be_eight v

/-- C6: Encode wire format — for every in-range value the bytes appended
by `encode` are the `w`-byte big-endian representation of `v` with the
2-bit width tag `OR`-ed into the top two bits of the first byte, with
`w ∈ {1, 2, 4, 8}` also returned as the bytes-written count and equal to
the appended length; in particular `encode 3 = [0b00000011]` and
`encode 257 = [0b01000001, 0b00000001]`. -/
theorem encode_wire_format :
    (∀ v, v ≤ MAX_INT_8 → ∃ w, encode v = .ok (specWire v w) w ∧
      (w = 1 ∨ w = 2 ∨ w = 4 ∨ w = 8) ∧ (specWire v w).length = w) ∧
    encode 3 = .ok [0b00000011] 1 ∧
    encode 257 = .ok [0b01000001, 0b00000001] 2 := by
  refine ⟨?_, by decide, by decide⟩
  intro v h
  by_cases h1 : v ≤ MAX_INT_1
  · have hs : specWire v 1 = [v] := by
      rw [MAX_INT_1_eq] at h1
      have hmod : v % 256 = v := Nat.mod_eq_of_lt (by omega)
      simp [specWire, beBytes_one, tagOf, hmod, Nat.zero_shiftLeft]
    exact ⟨1, by rw [encode_branch1 v h1, hs], by norm_num, by rw [hs]; rfl⟩
  · by_cases h2 : v ≤ MAX_INT_2
    · have hs : specWire v 2 = [2 ^ 6 + v / 2 ^ 8, v % 2 ^ 8] := by
        rw [MAX_INT_2_eq] at h2
        have hmod : v / 2 ^ 8 % 256 = v / 2 ^ 8 := Nat.mod_eq_of_lt (by omega)
        simp only [specWire, beBytes_two, tagOf, hmod,
          lor_shiftLeft_eq_add 1 6 (v / 2 ^ 8) (by omega)]
        norm_num
      exact ⟨2, by rw [encode_branch2 v h1 h2, hs], by norm_num,
        by rw [hs]; rfl⟩
    · by_cases h3 : v ≤ MAX_INT_4
      · have hs : specWire v 4 =
            [2 ^ 7 + v / 2 ^ 24, v / 2 ^ 16 % 256, v / 2 ^ 8 % 256,
              v % 2 ^ 8] := by
          rw [MAX_INT_4_eq] at h3
          have hmod : v / 2 ^ 24 % 256 = v / 2 ^ 24 :=
            Nat.mod_eq_of_lt (by omega)
          simp only [specWire, beBytes_four, tagOf, hmod,
            lor_shiftLeft_eq_add 2 6 (v / 2 ^ 24) (by omega)]
          norm_num
        exact ⟨4, by rw [encode_branch4 v h2 h3, hs], by norm_num,
          by rw [hs]; rfl⟩
      · have hs : specWire v 8 =
            [3 * 2 ^ 6 + v / 2 ^ 56, v / 2 ^ 48 % 256, v / 2 ^ 40 % 256,
              v / 2 ^ 32 % 256, v / 2 ^ 24 % 256, v / 2 ^ 16 % 256,
              v / 2 ^ 8 % 256, v % 2 ^ 8] := by
          rw [MAX_INT_8_eq] at h
          have hmod : v / 2 ^ 56 % 256 = v / 2 ^ 56 :=
            Nat.mod_eq_of_lt (by omega)
          simp only [specWire, beBytes_eight, tagOf, hmod,
            lor_shiftLeft_eq_add 3 6 (v / 2 ^ 56) (by omega)]
          norm_num
        exact ⟨8, by rw [encode_branch8 v h3 h, hs], by norm_num,
          by rw [hs]; rfl⟩

/-- Witness for C6 at `v = 257`. -/
theorem encode_wire_format_witness :
    ∃ w, encode 257 = .ok (specWire 257 w) w ∧
      (w = 1 ∨ w = 2 ∨ w = 4 ∨ w = 8) ∧ (specWire 257 w).length = w :=
  encode_wire_format.1 257 (by decide)

/-- C8: Decoder totality and leniency — every buffer holding at least as
many bytes as the width implied by the first byte's 2-bit tag decodes
successfully (all four tag values map to defined widths, so there is no
invalid-tag error), and the non-minimal two-byte encoding of `3` is
accepted even though `encode` produces the one-byte form. -/
theorem decode_total_and_lenient :
    (∀ first rest, first < 256 → tagWidth first ≤ (first :: rest).length →
      ∃ v n, decode (first :: rest) = .ok v n) ∧
    decode [0b01000000, 0b00000011] = .ok 3 2 ∧
    encode 3 = .ok [0b00000011] 1 := by
  refine ⟨?_, by decide, by decide⟩
  intro first rest hf hlen
  have h4 : first >>> 6 = 0 ∨ first >>> 6 = 1 ∨ first >>> 6 = 2 ∨
      first >>> 6 = 3 := by
    rw [Nat.shiftRight_eq_div_pow]; omega
  rcases h4 with ht | ht | ht | ht
  · exact ⟨_, _, decode_tag0 first rest ht⟩
  · have hw : tagWidth first = 2 := by simp [tagWidth, ht]
    rw [hw, List.length_cons] at hlen
    exact ⟨_, _, decode_tag1 first rest ht (by omega)⟩
  · have hw : tagWidth first = 4 := by simp [tagWidth, ht]
    rw [hw, List.length_cons] at hlen
    exact ⟨_, _, decode_tag2 first rest ht (by omega)⟩
  · have hw : tagWidth first = 8 := by simp [tagWidth, ht]
    rw [hw, List.length_cons] at hlen
    exact ⟨_, _, decode_tag3 first rest ht (by omega)⟩

/-- Witness for C8: the one-byte buffer `[0]`. -/
theorem decode_total_and_lenient_witness :
    ∃ v n, decode (0 :: []) = .ok v n :=
  decode_total_and_lenient.1 0 [] (by decide) (by decide)

/-- Any buffer whose first byte has both top bits above the `u8` range
(`first >>> 6 ≥ 4`) hits the modelled `unreachable!` arm. -/
theorem decode_tagGe4 (first : Nat) (rest : List Nat)
    (h : 4 ≤ first >>> 6) :
    decode (first :: rest) = .panicked := by
  obtain ⟨k, hk⟩ : ∃ k, first >>> 6 = k + 4 := ⟨first >>> 6 - 4, by omega⟩
  rw [decode, hk]
  rfl

/-- C9: Decoded-value range invariant — every value returned by a
successful `decode` is at most `2^62 - 1`, because each arm masks with
the width's maximum constant. -/
theorem decode_value_le_max (src : List Nat) (v n : Nat)
    (h : decode src = .ok v n) : v ≤ MAX_INT_8 := by
  cases src with
  | nil => simp [decode] at h
  | cons first rest =>
    rcases Nat.lt_or_ge (first >>> 6) 4 with hlt | hge
    · have h4 : first >>> 6 = 0 ∨ first >>> 6 = 1 ∨ first >>> 6 = 2 ∨
          first >>> 6 = 3 := by omega
      rcases h4 with ht | ht | ht | ht
      · rw [decode_tag0 first rest ht] at h
        cases h
        exact le_trans Nat.and_le_right (by decide)
      · cases hg : get_uint_be rest 1 with
        | none => simp [decode, ht, hg] at h
        | some m =>
          simp only [decode, ht, hg, DecodeResult.ok.injEq] at h
          obtain ⟨rfl, rfl⟩ := h
          exact le_trans Nat.and_le_right (by decide)
      · cases hg : get_uint_be rest 3 with
        | none => simp [decode, ht, hg] at h
        | some m =>
          simp only [decode, ht, hg, DecodeResult.ok.injEq] at h
          obtain ⟨rfl, rfl⟩ := h
          exact le_trans Nat.and_le_right (by decide)
      · cases hg : get_uint_be rest 7 with
        | none => simp [decode, ht, hg] at h
        | some m =>
          simp only [decode, ht, hg, DecodeResult.ok.injEq] at h
          obtain ⟨rfl, rfl⟩ := h
          exact le_trans Nat.and_le_right le_rfl
    · rw [decode_tagGe4 first rest hge] at h
      simp at h

/-- Witness for C9 on the buffer `[3]`. -/
theorem decode_value_le_max_witness : 3 ≤ MAX_INT_8 :=
  decode_value_le_max [3] 3 1 (by decide)

theorem get_uint_be_take_eq (r₁ r₂ : List Nat) (n : Nat)
    (h : r₁.take n = r₂.take n) :
    get_uint_be r₁ n = get_uint_be r₂ n := by
  have hl : min n r₁.length = min n r₂.length := by
    rw [← List.length_take, ← List.length_take, h]
  unfold get_uint_be
  by_cases hc : n ≤ r₁.length
  · rw [if_pos hc, if_pos (by omega), h]
  · rw [if_neg hc, if_neg (by omega)]

/-- C10: Prefix-only dependence — the result of `decode` is unchanged
when bytes beyond the width implied by the first byte are changed, and a
successful decode always reports exactly that implied width as bytes
consumed. -/
theorem decode_depends_only_on_width_bytes :
    (∀ (first : Nat) (r₁ r₂ : List Nat),
      r₁.take (tagWidth first - 1) = r₂.take (tagWidth first - 1) →
      decode (first :: r₁) = decode (first :: r₂)) ∧
    (∀ (first : Nat) (rest : List Nat) (v n : Nat),
      decode (first :: rest) = .ok v n → n = tagWidth first) := by
  constructor
  · intro first r₁ r₂ htake
    rcases Nat.lt_or_ge (first >>> 6) 4 with hlt | hge
    · have h4 : first >>> 6 = 0 ∨ first >>> 6 = 1 ∨ first >>> 6 = 2 ∨
          first >>> 6 = 3 := by omega
      rcases h4 with ht | ht | ht | ht
      · rw [decode_tag0 first r₁ ht, decode_tag0 first r₂ ht]
      · have hw : tagWidth first - 1 = 1 := by simp [tagWidth, ht]
        rw [hw] at htake
        rw [decode, ht, decode, ht, get_uint_be_take_eq r₁ r₂ 1 htake]
      · have hw : tagWidth first - 1 = 3 := by simp [tagWidth, ht]
        rw [hw] at htake
        rw [decode, ht, decode, ht, get_uint_be_take_eq r₁ r₂ 3 htake]
      · have hw : tagWidth first - 1 = 7 := by simp [tagWidth, ht]
        rw [hw] at htake
        rw [decode, ht, decode, ht, get_uint_be_take_eq r₁ r₂ 7 htake]
    · rw [decode_tagGe4 first r₁ hge, decode_tagGe4 first r₂ hge]
  · intro first rest v n h
    rcases Nat.lt_or_ge (first >>> 6) 4 with hlt | hge
    · have h4 : first >>> 6 = 0 ∨ first >>> 6 = 1 ∨ first >>> 6 = 2 ∨
          first >>> 6 = 3 := by omega
      rcases h4 with ht | ht | ht | ht
      · rw [decode_tag0 first rest ht] at h
        cases h
        simp [tagWidth, ht]
      · cases hg : get_uint_be rest 1 with
        | none => simp [decode, ht, hg] at h
        | some m =>
          simp only [decode, ht, hg, DecodeResult.ok.injEq] at h
          obtain ⟨-, rfl⟩ := h
          simp [tagWidth, ht]
      · cases hg : get_uint_be rest 3 with
        | none => simp [decode, ht, hg] at h
        | some m =>
          simp only [decode, ht, hg, DecodeResult.ok.injEq] at h
          obtain ⟨-, rfl⟩ := h
          simp [tagWidth, ht]
      · cases hg : get_uint_be rest 7 with
        | none => simp [decode, ht, hg] at h
        | some m =>
          simp only [decode, ht, hg, DecodeResult.ok.injEq] at h
          obtain ⟨-, rfl⟩ := h
          simp [tagWidth, ht]
    · rw [decode_tagGe4 first rest hge] at h
      simp at h

/-- Witness for C10: two buffers sharing the two read bytes but differing
in the trailing byte decode identically. -/
theorem decode_depends_only_on_width_bytes_witness :
    decode (64 :: [7, 100]) = decode (64 :: [7, 200]) :=
  decode_depends_only_on_width_bytes.1 64 [7, 100] [7, 200] (by decide)

end Quic
